import Mathlib

/-!
Verification of the airport-network core of `src/backend/graph.py`
(class `AirportMapVisualizer`).

The graph layer (`_build_graph`, `get_top_airports`, `get_network_statistics`)
is embedded as computable functions over lists; node identifiers are `ℕ`,
carried record attributes are `String`/`ℚ` (they are only stored and compared,
never computed with by the modelled operations).  The geometric layer
(`haversine_distance`, `great_circle_path`) is embedded over `ℝ`, with
Python's `math.atan2 y x` embedded as `Complex.arg (x + y*I)`, which agrees
with `atan2` on all of `ℝ × ℝ` (including `arg 0 = 0 = atan2 0 0`).
-/

namespace AirportGraph

/-- One row of `airports_min.csv` as consumed by the code: an identifier plus
the attributes `name`, `lat`, `lon` stored on the node (the modelled
operations read only `id`; coordinates are carried as exact rationals). -/
structure Airport where
  id : ℕ
  name : String
  lat : ℚ
  lon : ℚ
deriving DecidableEq, Repr

/-- One row of `routes_min.csv` as consumed by the code: only the columns
`src_id` and `dst_id` are ever read by `_build_graph`. -/
structure Route where
  src_id : ℕ
  dst_id : ℕ
deriving DecidableEq, Repr

/-- The `networkx.Graph` state: node ids in insertion order (no duplicates)
and the structural undirected edges in insertion order, each stored once in
the orientation in which it was first added. -/
structure NXGraph where
  nodes : List ℕ
  edges : List (ℕ × ℕ)
deriving DecidableEq, Repr

/-- `networkx.Graph.add_node`: a repeated id only updates attributes and does
not change the node set. -/
def addNode (g : NXGraph) (i : ℕ) : NXGraph :=
  if i ∈ g.nodes then g else { g with nodes := g.nodes ++ [i] }

/-- Whether the undirected edge `{u, v}` is present (an edge is stored in a
single orientation). -/
def hasEdge (g : NXGraph) (u v : ℕ) : Bool :=
  decide ((u, v) ∈ g.edges ∨ (v, u) ∈ g.edges)

/-- `networkx.Graph.add_edge`: inserts missing endpoints as nodes, then adds
the undirected edge unless it is already present (re-adding an existing edge
only updates attributes).  `addEdgeRaw` is the second half, acting on the
graph in which both endpoints are present. -/
def addEdgeRaw (g : NXGraph) (u v : ℕ) : NXGraph :=
  if hasEdge g u v then g else { g with edges := g.edges ++ [(u, v)] }

def addEdge (g : NXGraph) (u v : ℕ) : NXGraph :=
  addEdgeRaw (addNode (addNode g u) v) u v

/-- The edge phase of `AirportMapVisualizer._build_graph`: a route adds an
edge only when both `src_id` and `dst_id` are already nodes, otherwise it is
silently skipped. -/
def routeStep (g : NXGraph) (r : Route) : NXGraph :=
  if r.src_id ∈ g.nodes ∧ r.dst_id ∈ g.nodes then addEdge g r.src_id r.dst_id else g

/-- `AirportMapVisualizer._build_graph`: add one node per airport row, then
process the route rows in order. -/
def _build_graph (airports : List Airport) (routes : List Route) : NXGraph :=
  let g0 := airports.foldl (fun g a => addNode g a.id) ⟨[], []⟩
  routes.foldl routeStep g0

/-- `list(self.graph.neighbors(u))` up to order: the distinct nodes adjacent
to `u` (a self-loop makes `u` its own neighbour, listed once). -/
def neighbors (g : NXGraph) (u : ℕ) : List ℕ :=
  g.nodes.filter (fun v => hasEdge g u v)

/-- `len(list(self.graph.neighbors(u)))`, the connection count the code uses
for ranking and statistics. -/
def degree (g : NXGraph) (u : ℕ) : ℕ :=
  (neighbors g u).length

/-! ### Shortest paths, connectivity and diameter

`networkx` computes `nx.is_connected` and `nx.diameter` by breadth-first
search over the adjacency structure; we embed that as walks whose steps land
on graph nodes, together with an iterated one-step closure whose fixpoint is
reachability. -/

/-- `existsWalkB g u v k`: there is a walk of exactly `k` hops from `u` to
`v` whose every step lands on a node of `g` (the start `u` is
unconstrained, matching breadth-first search from a source). -/
def existsWalkB (g : NXGraph) : ℕ → ℕ → ℕ → Bool
  | u, v, 0 => u == v
  | u, v, k+1 =>
    decide (v ∈ g.nodes) &&
      (u :: g.nodes).any (fun w => existsWalkB g u w k && hasEdge g w v)

/-- One round of breadth-first expansion: keep `s` and add every node
adjacent to some member of `s`. -/
def adjStep (g : NXGraph) (s : List ℕ) : List ℕ :=
  (s ++ g.nodes.filter (fun v => s.any (fun w => hasEdge g w v))).dedup

/-- `k` rounds of breadth-first expansion from the singleton `{u}`. -/
def reachIter (g : NXGraph) (u : ℕ) : ℕ → List ℕ
  | 0 => [u]
  | k+1 => adjStep g (reachIter g u k)

/-- Breadth-first reachability: `g.nodes.length` rounds reach the fixpoint. -/
def reachableB (g : NXGraph) (u v : ℕ) : Bool :=
  decide (v ∈ reachIter g u g.nodes.length)

/-- `nx.is_connected`: at least one node, and every node is reachable from
the first one.  (On a node-free graph `networkx` raises, but
`get_network_statistics` has already raised on `max([])` by then.) -/
def isConnectedB (g : NXGraph) : Bool :=
  match g.nodes with
  | [] => false
  | u :: _ => g.nodes.all (fun v => reachableB g u v)

/-- Breadth-first shortest-path search, bounded by `k` hops: the least walk
length `≤ k` from `u` to `v`, if any. -/
def distAux (g : NXGraph) (u v : ℕ) : ℕ → Option ℕ
  | 0 => if existsWalkB g u v 0 then some 0 else none
  | k+1 =>
    match distAux g u v k with
    | some d => some d
    | none => if existsWalkB g u v (k+1) then some (k+1) else none

/-- `nx.shortest_path_length` as used by `nx.diameter`: on a connected graph
every pairwise distance is at most `g.nodes.length` hops. -/
def distB (g : NXGraph) (u v : ℕ) : Option ℕ :=
  distAux g u v g.nodes.length

/-- Eccentricity of `u`: greatest shortest-path distance from `u`. -/
def ecc (g : NXGraph) (u : ℕ) : ℕ :=
  (g.nodes.map (fun v => (distB g u v).getD 0)).foldr max 0

/-- `nx.diameter`: greatest eccentricity, i.e. greatest pairwise
shortest-path distance. -/
def diameterNX (g : NXGraph) : ℕ :=
  (g.nodes.map (fun u => ecc g u)).foldr max 0

/-- `nx.number_connected_components`: one representative per reachability
class, counted in node order. -/
def number_connected_components (g : NXGraph) : ℕ :=
  (g.nodes.foldl
    (fun reps v => if reps.any (fun w => reachableB g w v) then reps else reps ++ [v])
    []).length

/-! ### Network statistics -/

/-- The `'diameter'` entry of the statistics dict: either the numeric
`nx.diameter` or the sentinel string `'N/A (grafo não conectado)'`. -/
inductive DiamValue where
  | val (d : ℕ)
  | na
deriving DecidableEq, Repr

/-- Python exceptions observable from `get_network_statistics`. -/
inductive PyError where
  /-- The built-in `ValueError` that `max([])` raises. -/
  | valueError
  /-- Modelled from the spec: the specific `EmptyGraphError` the spec says
  the statistics computation raises on zero nodes; no such class exists
  anywhere in the source, it is included only to compare against. -/
  | emptyGraphError
deriving DecidableEq, Repr

/-- The statistics dict; `avg_connections` is `np.mean` of the per-node
connection counts, kept exact as a rational. -/
structure NetworkStats where
  total_airports : ℕ
  total_routes : ℕ
  avg_connections : ℚ
  max_connections : ℕ
  connected_components : ℕ
  diameter : DiamValue
deriving DecidableEq, Repr

/-- `AirportMapVisualizer.get_network_statistics`.  On a node-free graph the
value for `'avg_connections'` is `np.mean([])` (a quiet `nan` plus a
warning), and the very next entry `'max_connections'` evaluates `max([])`,
which raises the built-in `ValueError`; the dict is never produced. -/
def get_network_statistics (g : NXGraph) : Except PyError NetworkStats :=
  if g.nodes.isEmpty then .error .valueError
  else
    .ok
      { total_airports := g.nodes.length
        total_routes := g.edges.length
        avg_connections :=
          ((g.nodes.map (fun u => degree g u)).sum : ℚ) / (g.nodes.length : ℚ)
        max_connections := (g.nodes.map (fun u => degree g u)).foldr max 0
        connected_components := number_connected_components g
        diameter := if isConnectedB g then .val (diameterNX g) else .na }

/-! ### Ranking -/

/-- The comparison used by `sorted(..., key=lambda x: connections[x],
reverse=True)`: `u` may come before `w` when its connection count is at
least as large.  Python's sort is stable and `reverse=True` keeps ties in
dict insertion order, exactly as `List.insertionSort` with this relation. -/
def degGE (g : NXGraph) (u w : ℕ) : Prop :=
  degree g w ≤ degree g u

instance (g : NXGraph) : DecidableRel (degGE g) :=
  fun u w => inferInstanceAs (Decidable (degree g w ≤ degree g u))

/-- `AirportMapVisualizer.get_top_airports`: rank the node ids by connection
count (descending, ties in node insertion order), keep the first `n`, and
return the airport rows whose id is among them — in *airport-file order*,
because the final step is `self.airports_df[self.airports_df['id'].isin(top_airports_ids)]`. -/
def get_top_airports (airports : List Airport) (routes : List Route) (n : ℕ) :
    List Airport :=
  let g := _build_graph airports routes
  let top_airports_ids := (g.nodes.insertionSort (degGE g)).take n
  airports.filter (fun a => a.id ∈ top_airports_ids)

/-! ### GeoMath: `haversine_distance` and `great_circle_path` -/

open Real in
/-- `math.radians`. -/
noncomputable def radians (x : ℝ) : ℝ := x * π / 180

open Real in
/-- `math.degrees`. -/
noncomputable def degrees (x : ℝ) : ℝ := x * 180 / π

/-- `math.atan2 y x`, embedded as the argument of the complex number
`x + y*I`; the two functions agree on every real pair, including
`atan2 0 0 = 0 = arg 0`. -/
noncomputable def atan2 (y x : ℝ) : ℝ := Complex.arg (x + y * Complex.I)

/-- `AirportMapVisualizer.haversine_distance`. -/
noncomputable def haversine_distance (lat1 lon1 lat2 lon2 : ℝ) : ℝ :=
  let rlat1 := radians lat1
  let rlon1 := radians lon1
  let rlat2 := radians lat2
  let rlon2 := radians lon2
  let dlat := rlat2 - rlat1
  let dlon := rlon2 - rlon1
  let a := Real.sin (dlat / 2) ^ 2 +
    Real.cos rlat1 * Real.cos rlat2 * Real.sin (dlon / 2) ^ 2
  let c := 2 * Real.arcsin (Real.sqrt a)
  c * 6371

/-- Modelled from the spec: the reference haversine definition, written out
from the spec text "convert all four to radians; Δlat = lat2−lat1,
Δlon = lon2−lon1; a = sin²(Δlat/2) + cos(lat1)·cos(lat2)·sin²(Δlon/2);
c = 2·asin(√a); result = c × 6371". -/
noncomputable def haversine_reference (lat1 lon1 lat2 lon2 : ℝ) : ℝ :=
  2 * Real.arcsin (Real.sqrt
      (Real.sin ((radians lat2 - radians lat1) / 2) ^ 2 +
        Real.cos (radians lat1) * Real.cos (radians lat2) *
          Real.sin ((radians lon2 - radians lon1) / 2) ^ 2)) * 6371

/-- The angular separation `c = 2 * atan2(sqrt(a), sqrt(1-a))` computed at
the top of `great_circle_path` (all four inputs in degrees). -/
noncomputable def angularC (lat1 lon1 lat2 lon2 : ℝ) : ℝ :=
  let rlat1 := radians lat1
  let rlon1 := radians lon1
  let rlat2 := radians lat2
  let rlon2 := radians lon2
  let dlat := rlat2 - rlat1
  let dlon := rlon2 - rlon1
  let a := Real.sin (dlat / 2) ^ 2 +
    Real.cos rlat1 * Real.cos rlat2 * Real.sin (dlon / 2) ^ 2
  2 * atan2 (Real.sqrt a) (Real.sqrt (1 - a))

open Classical in
/-- The interpolation weight `A`: `sin((1-f)*c)/sin(c)` when `sin(c) != 0`,
else the linear fallback `1-f`. -/
noncomputable def slerpA (c f : ℝ) : ℝ :=
  if Real.sin c = 0 then 1 - f else Real.sin ((1 - f) * c) / Real.sin c

open Classical in
/-- The interpolation weight `B`: `sin(f*c)/sin(c)` when `sin(c) != 0`, else
the linear fallback `f`. -/
noncomputable def slerpB (c f : ℝ) : ℝ :=
  if Real.sin c = 0 then f else Real.sin (f * c) / Real.sin c

/-- One loop iteration of `great_circle_path` (inputs already in radians):
the weighted Cartesian combination converted back to a `(lat, lon)` pair in
degrees. -/
noncomputable def gcPoint (rlat1 rlon1 rlat2 rlon2 c f : ℝ) : ℝ × ℝ :=
  let A := slerpA c f
  let B := slerpB c f
  let x := A * Real.cos rlat1 * Real.cos rlon1 + B * Real.cos rlat2 * Real.cos rlon2
  let y := A * Real.cos rlat1 * Real.sin rlon1 + B * Real.cos rlat2 * Real.sin rlon2
  let z := A * Real.sin rlat1 + B * Real.sin rlat2
  (degrees (atan2 z (Real.sqrt (x ^ 2 + y ^ 2))), degrees (atan2 y x))

/-- `AirportMapVisualizer.great_circle_path`.  The loop body evaluates
`f = i / num_points`; when `num_points == 0` the very first iteration
(`i = 0`) performs `0 / 0` and Python raises `ZeroDivisionError` — there is
no guard in the source, so the call never returns, embedded as `none`. -/
noncomputable def great_circle_path (lat1 lon1 lat2 lon2 : ℝ) (num_points : ℕ) :
    Option (List ℝ × List ℝ) :=
  if num_points = 0 then none
  else
    let c := angularC lat1 lon1 lat2 lon2
    let pts := (List.range (num_points + 1)).map
      (fun i : ℕ => gcPoint (radians lat1) (radians lon1) (radians lat2) (radians lon2)
        c ((i : ℝ) / (num_points : ℝ)))
    some (pts.map Prod.fst, pts.map Prod.snd)

/-- Modelled from the spec: one interpolation point computed with the
linear weights `A = 1−f, B = f` used unconditionally — the degenerate-case
fallback the spec describes for `sin(c) ≈ 0`. -/
noncomputable def gcPointLinear (rlat1 rlon1 rlat2 rlon2 f : ℝ) : ℝ × ℝ :=
  let x := (1 - f) * Real.cos rlat1 * Real.cos rlon1 + f * Real.cos rlat2 * Real.cos rlon2
  let y := (1 - f) * Real.cos rlat1 * Real.sin rlon1 + f * Real.cos rlat2 * Real.sin rlon2
  let z := (1 - f) * Real.sin rlat1 + f * Real.sin rlat2
  (degrees (atan2 z (Real.sqrt (x ^ 2 + y ^ 2))), degrees (atan2 y x))

/-- Modelled from the spec: the path generator with the linear-weight
fallback engaged at every sample. -/
noncomputable def great_circle_path_linear (lat1 lon1 lat2 lon2 : ℝ) (num_points : ℕ) :
    Option (List ℝ × List ℝ) :=
  if num_points = 0 then none
  else
    let pts := (List.range (num_points + 1)).map
      (fun i : ℕ => gcPointLinear (radians lat1) (radians lon1) (radians lat2) (radians lon2)
        ((i : ℝ) / (num_points : ℝ)))
    some (pts.map Prod.fst, pts.map Prod.snd)

/-! ### Derived predicates used by the theorems -/

/-- The endpoint invariant: every stored edge joins two present nodes. -/
def EdgeOk (g : NXGraph) : Prop :=
  ∀ e ∈ g.edges, e.1 ∈ g.nodes ∧ e.2 ∈ g.nodes

/-- The specified notion of shortest-path hop distance between two
vertices: a `d`-hop walk exists and no shorter one does. -/
def IsShortestDist (g : NXGraph) (u v d : ℕ) : Prop :=
  existsWalkB g u v d = true ∧ ∀ j < d, existsWalkB g u v j = false

instance (g : NXGraph) : IsTotal ℕ (degGE g) :=
  ⟨fun a b => le_total (degree g b) (degree g a)⟩

instance (g : NXGraph) : IsTrans ℕ (degGE g) :=
  ⟨fun _ _ _ hab hbc => le_trans hbc hab⟩

/-! ### Lemmas on graph construction -/

theorem addNode_edges (g : NXGraph) (i : ℕ) : (addNode g i).edges = g.edges := by
  unfold addNode; split <;> rfl

theorem addNode_nodes_mono (g : NXGraph) (i j : ℕ) (h : j ∈ g.nodes) :
    j ∈ (addNode g i).nodes := by
  unfold addNode; split
  · exact h
  · exact List.mem_append_left _ h

theorem mem_addNode (g : NXGraph) (i : ℕ) : i ∈ (addNode g i).nodes := by
  unfold addNode; split
  · assumption
  · simp

theorem addNode_of_mem (g : NXGraph) (i : ℕ) (h : i ∈ g.nodes) : addNode g i = g := by
  unfold addNode; simp [h]

theorem addEdgeRaw_nodes (g : NXGraph) (u v : ℕ) : (addEdgeRaw g u v).nodes = g.nodes := by
  unfold addEdgeRaw; split <;> rfl

theorem addEdge_nodes_mono (g : NXGraph) (u v j : ℕ) (h : j ∈ g.nodes) :
    j ∈ (addEdge g u v).nodes := by
  unfold addEdge
  rw [addEdgeRaw_nodes]
  exact addNode_nodes_mono _ _ _ (addNode_nodes_mono _ _ _ h)

theorem addEdge_mem_left (g : NXGraph) (u v : ℕ) : u ∈ (addEdge g u v).nodes := by
  unfold addEdge
  rw [addEdgeRaw_nodes]
  exact addNode_nodes_mono _ _ _ (mem_addNode g u)

theorem addEdge_mem_right (g : NXGraph) (u v : ℕ) : v ∈ (addEdge g u v).nodes := by
  unfold addEdge
  rw [addEdgeRaw_nodes]
  exact mem_addNode _ v

theorem addEdge_edges_cases (g : NXGraph) (u v : ℕ) (e : ℕ × ℕ)
    (h : e ∈ (addEdge g u v).edges) : e ∈ g.edges ∨ e = (u, v) := by
  unfold addEdge addEdgeRaw at h; split at h
  · exact Or.inl (by simpa [addNode_edges] using h)
  · simpa [addNode_edges] using h

theorem addEdge_edges_mono (g : NXGraph) (u v : ℕ) (e : ℕ × ℕ) (h : e ∈ g.edges) :
    e ∈ (addEdge g u v).edges := by
  unfold addEdge addEdgeRaw; split
  · simpa [addNode_edges] using h
  · exact List.mem_append_left _ (by simpa [addNode_edges] using h)

theorem addEdge_nodes_of_mem (g : NXGraph) (u v : ℕ) (hu : u ∈ g.nodes)
    (hv : v ∈ g.nodes) : (addEdge g u v).nodes = g.nodes := by
  unfold addEdge
  rw [addEdgeRaw_nodes, addNode_of_mem (addNode g u) v (addNode_nodes_mono g u v hv),
    addNode_of_mem g u hu]

theorem hasEdge_addEdge (g : NXGraph) (u v : ℕ) :
    hasEdge (addEdge g u v) u v = true := by
  unfold addEdge addEdgeRaw
  split
  · assumption
  · simp [hasEdge, addNode_edges]

theorem hasEdge_mono_addEdge (g : NXGraph) (a b u v : ℕ)
    (h : hasEdge g a b = true) : hasEdge (addEdge g u v) a b = true := by
  simp only [hasEdge, decide_eq_true_eq] at h ⊢
  rcases h with h | h
  · exact Or.inl (addEdge_edges_mono _ _ _ _ h)
  · exact Or.inr (addEdge_edges_mono _ _ _ _ h)

theorem routeStep_nodes (g : NXGraph) (r : Route) : (routeStep g r).nodes = g.nodes := by
  unfold routeStep; split
  · next h => exact addEdge_nodes_of_mem g _ _ h.1 h.2
  · rfl

theorem foldl_routeStep_nodes (routes : List Route) (g : NXGraph) :
    (routes.foldl routeStep g).nodes = g.nodes := by
  induction routes generalizing g with
  | nil => rfl
  | cons r rs ih => rw [List.foldl_cons, ih, routeStep_nodes]

theorem hasEdge_mono_routeStep (g : NXGraph) (r : Route) (a b : ℕ)
    (h : hasEdge g a b = true) : hasEdge (routeStep g r) a b = true := by
  unfold routeStep; split
  · exact hasEdge_mono_addEdge _ _ _ _ _ h
  · exact h

theorem hasEdge_mono_foldl (routes : List Route) (g : NXGraph) (a b : ℕ)
    (h : hasEdge g a b = true) : hasEdge (routes.foldl routeStep g) a b = true := by
  induction routes generalizing g with
  | nil => exact h
  | cons r rs ih => exact ih _ (hasEdge_mono_routeStep _ _ _ _ h)

theorem foldl_routeStep_edge_of_mem (routes : List Route) (g : NXGraph) (r : Route)
    (hr : r ∈ routes) (hs : r.src_id ∈ g.nodes) (hd : r.dst_id ∈ g.nodes) :
    hasEdge (routes.foldl routeStep g) r.src_id r.dst_id = true := by
  induction routes generalizing g with
  | nil => cases hr
  | cons q qs ih =>
    rw [List.foldl_cons]
    rcases List.mem_cons.mp hr with rfl | hr
    · apply hasEdge_mono_foldl
      unfold routeStep
      rw [if_pos ⟨hs, hd⟩]
      exact hasEdge_addEdge g _ _
    · exact ih _ hr (by rwa [routeStep_nodes]) (by rwa [routeStep_nodes])

theorem edgeOk_routeStep (g : NXGraph) (r : Route) (h : EdgeOk g) :
    EdgeOk (routeStep g r) := by
  unfold routeStep; split
  · intro e he
    rcases addEdge_edges_cases _ _ _ _ he with h1 | h1
    · exact ⟨addEdge_nodes_mono _ _ _ _ (h e h1).1, addEdge_nodes_mono _ _ _ _ (h e h1).2⟩
    · subst h1
      exact ⟨addEdge_mem_left _ _ _, addEdge_mem_right _ _ _⟩
  · exact h

theorem edgeOk_foldl (routes : List Route) (g : NXGraph) (h : EdgeOk g) :
    EdgeOk (routes.foldl routeStep g) := by
  induction routes generalizing g with
  | nil => exact h
  | cons r rs ih => exact ih _ (edgeOk_routeStep _ _ h)

theorem foldl_routeStep_edges_origin (routes : List Route) (g : NXGraph) (e : ℕ × ℕ)
    (h : e ∈ (routes.foldl routeStep g).edges) :
    e ∈ g.edges ∨ ∃ r ∈ routes, e = (r.src_id, r.dst_id) := by
  induction routes generalizing g with
  | nil => exact Or.inl h
  | cons q qs ih =>
    rw [List.foldl_cons] at h
    rcases ih _ h with h1 | h1
    · unfold routeStep at h1; split at h1
      · rcases addEdge_edges_cases _ _ _ _ h1 with h2 | h2
        · exact Or.inl h2
        · exact Or.inr ⟨q, List.mem_cons_self _ _, h2⟩
      · exact Or.inl h1
    · rcases h1 with ⟨r, hr, he⟩
      exact Or.inr ⟨r, List.mem_cons_of_mem _ hr, he⟩

theorem foldl_addNode_edges (l : List Airport) (g : NXGraph) :
    (l.foldl (fun g a => addNode g a.id) g).edges = g.edges := by
  induction l generalizing g with
  | nil => rfl
  | cons a as ih => rw [List.foldl_cons, ih, addNode_edges]

theorem foldl_addNode_nodes (l : List Airport) (g : NXGraph)
    (hnodup : (l.map Airport.id).Nodup) (hfresh : ∀ a ∈ l, a.id ∉ g.nodes) :
    (l.foldl (fun g a => addNode g a.id) g).nodes = g.nodes ++ l.map Airport.id := by
  induction l generalizing g with
  | nil => simp
  | cons a as ih =>
    rw [List.map_cons, List.nodup_cons] at hnodup
    have hstep : (addNode g a.id).nodes = g.nodes ++ [a.id] := by
      unfold addNode
      rw [if_neg (hfresh a (List.mem_cons_self a as))]
    rw [List.foldl_cons, ih (addNode g a.id) hnodup.2, hstep, List.append_assoc]
    · rfl
    · intro b hb
      rw [hstep, List.mem_append]
      rintro (hbg | hba)
      · exact hfresh b (List.mem_cons_of_mem a hb) hbg
      · have : b.id = a.id := by simpa using hba
        exact hnodup.1 (this ▸ List.mem_map_of_mem Airport.id hb)

/-- Under unique airport identifiers the node list of the built graph is
exactly the airport id column, in order. -/
theorem build_graph_nodes (airports : List Airport) (routes : List Route)
    (hnodup : (airports.map Airport.id).Nodup) :
    (_build_graph airports routes).nodes = airports.map Airport.id := by
  unfold _build_graph
  rw [foldl_routeStep_nodes, foldl_addNode_nodes airports ⟨[], []⟩ hnodup (by simp)]
  rfl

theorem filter_map_comm (f : Airport → ℕ) (p : ℕ → Bool) (l : List Airport) :
    (l.map f).filter p = (l.filter (fun x => p (f x))).map f := by
  induction l with
  | nil => rfl
  | cons a as ih =>
    simp only [List.map_cons, List.filter_cons]
    cases h : p (f a) <;> simp [h, ih]

/-! ### Walks, breadth-first reachability and shortest paths -/

theorem hasEdge_symm (g : NXGraph) (u v : ℕ) : hasEdge g u v = hasEdge g v u := by
  simp [hasEdge, or_comm]

theorem existsWalk_zero (g : NXGraph) (u v : ℕ) :
    existsWalkB g u v 0 = true ↔ u = v := by
  simp [existsWalkB]

theorem existsWalk_succ (g : NXGraph) (u v k : ℕ) :
    existsWalkB g u v (k + 1) = true ↔
      v ∈ g.nodes ∧ ∃ w ∈ u :: g.nodes, existsWalkB g u w k = true ∧ hasEdge g w v = true := by
  simp [existsWalkB, List.any_eq_true, Bool.and_eq_true]

theorem mem_adjStep (g : NXGraph) (s : List ℕ) (v : ℕ) :
    v ∈ adjStep g s ↔ v ∈ s ∨ (v ∈ g.nodes ∧ ∃ w ∈ s, hasEdge g w v = true) := by
  simp [adjStep, List.any_eq_true]

theorem reach_subset (g : NXGraph) (u : ℕ) :
    ∀ k, ∀ x ∈ reachIter g u k, x ∈ u :: g.nodes := by
  intro k
  induction k with
  | zero =>
    intro x hx
    simp only [reachIter] at hx
    simp [List.eq_of_mem_singleton hx]
  | succ k ih =>
    intro x hx
    rcases (mem_adjStep g _ x).mp hx with h | h
    · exact ih x h
    · exact List.mem_cons_of_mem _ h.1

theorem reach_mono_succ (g : NXGraph) (u k : ℕ) :
    ∀ x ∈ reachIter g u k, x ∈ reachIter g u (k + 1) := by
  intro x hx
  exact (mem_adjStep g _ x).mpr (Or.inl hx)

theorem reach_mono (g : NXGraph) (u : ℕ) {j k : ℕ} (hjk : j ≤ k) :
    ∀ x ∈ reachIter g u j, x ∈ reachIter g u k := by
  induction k with
  | zero =>
    intro x hx
    rwa [Nat.le_zero.mp hjk] at hx
  | succ k ih =>
    rcases Nat.lt_or_ge j (k + 1) with h | h
    · intro x hx
      exact reach_mono_succ g u k x (ih (Nat.lt_succ_iff.mp h) x hx)
    · intro x hx
      rwa [Nat.le_antisymm hjk h] at hx

theorem walk_end_mem (g : NXGraph) (u w : ℕ) :
    ∀ j, existsWalkB g u w j = true → w ∈ u :: g.nodes := by
  intro j hw
  cases j with
  | zero => simp [(existsWalk_zero g u w).mp hw]
  | succ j => exact List.mem_cons_of_mem _ ((existsWalk_succ g u w j).mp hw).1

/-- Breadth-first iteration computes exactly the vertices admitting a walk
of at most `k` hops from the source. -/
theorem mem_reachIter_iff (g : NXGraph) (u : ℕ) :
    ∀ k v, v ∈ reachIter g u k ↔ ∃ j ≤ k, existsWalkB g u v j = true := by
  intro k
  induction k with
  | zero =>
    intro v
    constructor
    · intro hv
      refine ⟨0, le_refl 0, ?_⟩
      rw [existsWalk_zero]
      exact (List.eq_of_mem_singleton hv).symm
    · rintro ⟨j, hj, hw⟩
      rw [Nat.le_zero.mp hj, existsWalk_zero] at hw
      simp [reachIter, hw]
  | succ k ih =>
    intro v
    constructor
    · intro hv
      rcases (mem_adjStep g _ v).mp hv with h | ⟨hvn, w, hw, he⟩
      · rcases (ih v).mp h with ⟨j, hj, hwk⟩
        exact ⟨j, Nat.le_succ_of_le hj, hwk⟩
      · rcases (ih w).mp hw with ⟨j, hj, hwk⟩
        refine ⟨j + 1, Nat.succ_le_succ hj, ?_⟩
        rw [existsWalk_succ]
        exact ⟨hvn, w, reach_subset g u k w hw, hwk, he⟩
    · rintro ⟨j, hj, hw⟩
      cases j with
      | zero =>
        rw [existsWalk_zero] at hw
        subst hw
        exact reach_mono g u (Nat.zero_le _) u (by simp [reachIter])
      | succ j =>
        rcases (existsWalk_succ g u v j).mp hw with ⟨hvn, w, _, hwk, he⟩
        refine (mem_adjStep g _ v).mpr (Or.inr ⟨hvn, w, ?_, he⟩)
        exact (ih w).mpr ⟨j, Nat.lt_succ_iff.mp (Nat.lt_of_lt_of_le (Nat.lt_succ_self j) hj), hwk⟩

/-- Membership in one breadth-first round depends only on membership in the
current frontier set. -/
theorem adjStep_congr (g : NXGraph) (s1 s2 : List ℕ)
    (h : ∀ x, x ∈ s1 ↔ x ∈ s2) : ∀ x, x ∈ adjStep g s1 ↔ x ∈ adjStep g s2 := by
  intro x
  rw [mem_adjStep, mem_adjStep]
  constructor
  · rintro (hx | ⟨hxn, w, hw, he⟩)
    · exact Or.inl ((h x).mp hx)
    · exact Or.inr ⟨hxn, w, (h w).mp hw, he⟩
  · rintro (hx | ⟨hxn, w, hw, he⟩)
    · exact Or.inl ((h x).mpr hx)
    · exact Or.inr ⟨hxn, w, (h w).mpr hw, he⟩

theorem reach_stab_forall (g : NXGraph) (u k : ℕ)
    (hst : ∀ x, x ∈ reachIter g u (k + 1) ↔ x ∈ reachIter g u k) :
    ∀ m, k ≤ m → ∀ x, x ∈ reachIter g u m ↔ x ∈ reachIter g u k := by
  intro m
  induction m with
  | zero =>
    intro hm x
    rw [Nat.le_zero.mp hm]
  | succ m ih =>
    intro hm x
    rcases Nat.lt_or_ge k (m + 1) with h | h
    · have hkm : k ≤ m := Nat.lt_succ_iff.mp h
      have : ∀ y, y ∈ reachIter g u (m + 1) ↔ y ∈ reachIter g u (k + 1) :=
        adjStep_congr g _ _ (ih hkm)
      rw [this x, hst x]
    · rw [Nat.le_antisymm hm h]

theorem reach_card_grow (g : NXGraph) (u : ℕ) (k : ℕ)
    (h : ∀ j < k, ¬ (∀ x, x ∈ reachIter g u (j + 1) ↔ x ∈ reachIter g u j)) :
    k + 1 ≤ (reachIter g u k).toFinset.card := by
  induction k with
  | zero => simp [reachIter]
  | succ k ih =>
    have hk : k + 1 ≤ (reachIter g u k).toFinset.card :=
      ih (fun j hj => h j (Nat.lt_succ_of_lt hj))
    have hsub : (reachIter g u k).toFinset ⊆ (reachIter g u (k + 1)).toFinset := by
      intro x hx
      rw [List.mem_toFinset] at *
      exact reach_mono_succ g u k x hx
    have hne : (reachIter g u k).toFinset ≠ (reachIter g u (k + 1)).toFinset := by
      intro he
      refine h k (Nat.lt_succ_self k) (fun x => ?_)
      rw [← List.mem_toFinset, ← he, List.mem_toFinset]
    have hss : (reachIter g u k).toFinset ⊂ (reachIter g u (k + 1)).toFinset :=
      ssubset_of_subset_of_ne hsub hne
    exact Nat.succ_le_of_lt (Nat.lt_of_le_of_lt hk (Finset.card_lt_card hss))

theorem reach_card_bound (g : NXGraph) (u k : ℕ) :
    (reachIter g u k).toFinset.card ≤ g.nodes.length + 1 := by
  have hsub : (reachIter g u k).toFinset ⊆ (u :: g.nodes).toFinset := by
    intro x hx
    rw [List.mem_toFinset] at *
    exact reach_subset g u k x hx
  calc (reachIter g u k).toFinset.card ≤ (u :: g.nodes).toFinset.card :=
        Finset.card_le_card hsub
    _ ≤ (u :: g.nodes).length := List.toFinset_card_le _
    _ = g.nodes.length + 1 := List.length_cons u g.nodes

theorem reach_exists_stab (g : NXGraph) (u : ℕ) :
    ∃ k ≤ g.nodes.length, ∀ x, x ∈ reachIter g u (k + 1) ↔ x ∈ reachIter g u k := by
  by_contra hcon
  have hgrow := reach_card_grow g u (g.nodes.length + 1)
    (fun j hj hmem => hcon ⟨j, Nat.lt_succ_iff.mp hj, hmem⟩)
  have hbound := reach_card_bound g u (g.nodes.length + 1)
  omega

/-- A walk of any length lands inside the `g.nodes.length`-round
breadth-first closure. -/
theorem walk_to_reach (g : NXGraph) (u v j : ℕ)
    (hw : existsWalkB g u v j = true) : v ∈ reachIter g u g.nodes.length := by
  have hvj : v ∈ reachIter g u j := (mem_reachIter_iff g u j v).mpr ⟨j, le_refl j, hw⟩
  rcases le_or_lt j g.nodes.length with h | h
  · exact reach_mono g u h v hvj
  · rcases reach_exists_stab g u with ⟨k, hk, hst⟩
    have h1 := reach_stab_forall g u k hst j (le_of_lt (Nat.lt_of_le_of_lt hk h)) v
    have h2 := reach_stab_forall g u k hst g.nodes.length hk v
    exact h2.mpr (h1.mp hvj)

theorem reach_iff_walk (g : NXGraph) (u v : ℕ) :
    v ∈ reachIter g u g.nodes.length ↔ ∃ j, existsWalkB g u v j = true := by
  constructor
  · intro h
    rcases (mem_reachIter_iff g u _ v).mp h with ⟨j, _, hw⟩
    exact ⟨j, hw⟩
  · rintro ⟨j, hw⟩
    exact walk_to_reach g u v j hw

theorem walk_cons (g : NXGraph) (v w : ℕ) (hw : w ∈ g.nodes)
    (he : hasEdge g v w = true) :
    ∀ k t, existsWalkB g w t k = true → existsWalkB g v t (k + 1) = true := by
  intro k
  induction k with
  | zero =>
    intro t ht
    rw [existsWalk_zero] at ht
    subst ht
    rw [existsWalk_succ]
    exact ⟨hw, v, List.mem_cons_self v _, (existsWalk_zero g v v).mpr rfl, he⟩
  | succ k ih =>
    intro t ht
    rcases (existsWalk_succ g w t k).mp ht with ⟨htn, x, hx, hwx, hxt⟩
    have hvx : existsWalkB g v x (k + 1) = true := ih x hwx
    rw [existsWalk_succ]
    refine ⟨htn, x, ?_, hvx, hxt⟩
    rcases List.mem_cons.mp hx with rfl | hx
    · exact List.mem_cons_of_mem _ hw
    · exact List.mem_cons_of_mem _ hx

theorem walk_rev (g : NXGraph) (u : ℕ) (hu : u ∈ g.nodes) :
    ∀ k v, existsWalkB g u v k = true → existsWalkB g v u k = true := by
  intro k
  induction k with
  | zero =>
    intro v hv
    rw [existsWalk_zero] at hv
    exact (existsWalk_zero g v u).mpr hv.symm
  | succ k ih =>
    intro v hv
    rcases (existsWalk_succ g u v k).mp hv with ⟨hvn, w, hwmem, hw, he⟩
    have hwn : w ∈ g.nodes := by
      rcases List.mem_cons.mp hwmem with rfl | h
      · exact hu
      · exact h
    have hev : hasEdge g v w = true := by rw [hasEdge_symm]; exact he
    exact walk_cons g v w hwn hev k u (ih w hw)

theorem walk_concat (g : NXGraph) (u w j : ℕ) (hj : existsWalkB g u w j = true) :
    ∀ k v, existsWalkB g w v k = true → existsWalkB g u v (j + k) = true := by
  intro k
  induction k with
  | zero =>
    intro v hv
    rw [existsWalk_zero] at hv
    subst hv
    exact hj
  | succ k ih =>
    intro v hv
    rcases (existsWalk_succ g w v k).mp hv with ⟨hvn, x, hxmem, hwx, hxv⟩
    have hux : existsWalkB g u x (j + k) = true := ih x hwx
    rw [show j + (k + 1) = (j + k) + 1 by omega, existsWalk_succ]
    refine ⟨hvn, x, ?_, hux, hxv⟩
    rcases List.mem_cons.mp hxmem with rfl | hx
    · exact walk_end_mem g u x j hj
    · exact List.mem_cons_of_mem _ hx

/-! ### Shortest-path distance characterization -/

theorem distAux_succ_some (g : NXGraph) (u v k d : ℕ)
    (hd : distAux g u v k = some d) : distAux g u v (k + 1) = some d := by
  simp only [distAux, hd]

theorem distAux_succ_none (g : NXGraph) (u v k : ℕ)
    (hd : distAux g u v k = none) :
    distAux g u v (k + 1) =
      if existsWalkB g u v (k + 1) = true then some (k + 1) else none := by
  simp only [distAux, hd]

theorem distAux_none_iff (g : NXGraph) (u v : ℕ) :
    ∀ k, distAux g u v k = none ↔ ∀ j ≤ k, existsWalkB g u v j = false := by
  intro k
  induction k with
  | zero =>
    simp only [distAux]
    split
    · next h =>
      constructor
      · intro hn; cases hn
      · intro hall
        rw [hall 0 (le_refl 0)] at h
        cases h
    · next h =>
      simp only [Bool.not_eq_true] at h
      constructor
      · intro _ j hj
        rw [Nat.le_zero.mp hj]
        exact h
      · intro _; rfl
  | succ k ih =>
    cases hd : distAux g u v k with
    | some d =>
      rw [distAux_succ_some g u v k d hd]
      constructor
      · intro hn; cases hn
      · intro hall
        have hne : distAux g u v k = none :=
          ih.mpr (fun j hj => hall j (Nat.le_succ_of_le hj))
        rw [hd] at hne
        cases hne
    | none =>
      rw [distAux_succ_none g u v k hd]
      split
      · next h =>
        constructor
        · intro hn; cases hn
        · intro hall
          rw [hall (k + 1) (le_refl _)] at h
          cases h
      · next h =>
        simp only [Bool.not_eq_true] at h
        constructor
        · intro _ j hj
          rcases Nat.lt_or_ge j (k + 1) with hlt | hge
          · exact (ih.mp hd) j (Nat.lt_succ_iff.mp hlt)
          · rw [Nat.le_antisymm hj hge]
            exact h
        · intro _; rfl

theorem distAux_some_shortest (g : NXGraph) (u v : ℕ) :
    ∀ k d, distAux g u v k = some d → IsShortestDist g u v d := by
  intro k
  induction k with
  | zero =>
    intro d hd
    simp only [distAux] at hd
    split at hd
    · next h =>
      injection hd with hd
      subst hd
      exact ⟨h, fun j hj => absurd hj (Nat.not_lt_zero j)⟩
    · cases hd
  | succ k ih =>
    intro d hd
    cases hprev : distAux g u v k with
    | some e =>
      rw [distAux_succ_some g u v k e hprev] at hd
      injection hd with hd
      subst hd
      exact ih e hprev
    | none =>
      rw [distAux_succ_none g u v k hprev] at hd
      split at hd
      · next h =>
        injection hd with hd
        subst hd
        exact ⟨h, fun j hj => (distAux_none_iff g u v k).mp hprev j (Nat.lt_succ_iff.mp hj)⟩
      · cases hd

theorem distAux_some_of_walk (g : NXGraph) (u v k : ℕ)
    (h : ∃ j ≤ k, existsWalkB g u v j = true) : ∃ d, distAux g u v k = some d := by
  cases hd : distAux g u v k with
  | some d => exact ⟨d, rfl⟩
  | none =>
    rcases h with ⟨j, hj, hw⟩
    rw [(distAux_none_iff g u v k).mp hd j hj] at hw
    cases hw

/-- A shortest-path hop distance is unique, so it agrees with what the
bounded search returns. -/
theorem shortest_dist_unique (g : NXGraph) (u v d e : ℕ)
    (hd : IsShortestDist g u v d) (he : IsShortestDist g u v e) : d = e := by
  rcases Nat.lt_trichotomy d e with h | h | h
  · have h1 := hd.1
    rw [he.2 d h] at h1
    cases h1
  · exact h
  · have h1 := he.1
    rw [hd.2 e h] at h1
    cases h1

/-! ### Folded maxima -/

theorem le_foldr_max (l : List ℕ) (x : ℕ) (hx : x ∈ l) : x ≤ l.foldr max 0 := by
  induction l with
  | nil => cases hx
  | cons a as ih =>
    rcases List.mem_cons.mp hx with rfl | hx
    · exact le_max_left _ _
    · exact le_trans (ih hx) (le_max_right _ _)

theorem foldr_max_mem (l : List ℕ) : l.foldr max 0 ∈ l ∨ l.foldr max 0 = 0 := by
  induction l with
  | nil => exact Or.inr rfl
  | cons a as ih =>
    rcases max_choice a (as.foldr max 0) with h | h
    · rw [List.foldr_cons, h]
      exact Or.inl (List.mem_cons_self a as)
    · rw [List.foldr_cons, h]
      rcases ih with h1 | h1
      · exact Or.inl (List.mem_cons_of_mem a h1)
      · exact Or.inr h1

/-! ### Connectivity -/

theorem isConnected_all_pairs (g : NXGraph) (hc : isConnectedB g = true) :
    ∀ u ∈ g.nodes, ∀ v ∈ g.nodes, ∃ j, existsWalkB g u v j = true := by
  intro u hu v hv
  cases hn : g.nodes with
  | nil => rw [hn] at hu; cases hu
  | cons u0 rest =>
    have hall : ∀ x ∈ g.nodes, reachableB g u0 x = true := by
      unfold isConnectedB at hc
      rw [hn] at hc
      intro x hx
      rw [hn] at hx
      exact List.all_eq_true.mp hc x hx
    have hu0 : u0 ∈ g.nodes := by rw [hn]; exact List.mem_cons_self u0 rest
    have hwu : ∃ j, existsWalkB g u0 u j = true := by
      have := hall u hu
      simp only [reachableB, decide_eq_true_eq] at this
      exact (reach_iff_walk g u0 u).mp this
    have hwv : ∃ j, existsWalkB g u0 v j = true := by
      have := hall v hv
      simp only [reachableB, decide_eq_true_eq] at this
      exact (reach_iff_walk g u0 v).mp this
    rcases hwu with ⟨j1, hj1⟩
    rcases hwv with ⟨j2, hj2⟩
    exact ⟨j1 + j2, walk_concat g u u0 j1 (walk_rev g u0 hu0 j1 u hj1) j2 v hj2⟩

/-- On a connected graph, every node pair has a shortest-path distance which
the bounded search finds. -/
theorem connected_dist (g : NXGraph) (hc : isConnectedB g = true)
    (u : ℕ) (hu : u ∈ g.nodes) (v : ℕ) (hv : v ∈ g.nodes) :
    ∃ d, distB g u v = some d ∧ IsShortestDist g u v d := by
  rcases isConnected_all_pairs g hc u hu v hv with ⟨j, hw⟩
  have hreach : v ∈ reachIter g u g.nodes.length := walk_to_reach g u v j hw
  rcases (mem_reachIter_iff g u _ v).mp hreach with ⟨j2, hj2, hw2⟩
  rcases distAux_some_of_walk g u v g.nodes.length ⟨j2, hj2, hw2⟩ with ⟨d, hd⟩
  exact ⟨d, hd, distAux_some_shortest g u v _ d hd⟩

/-! ### GeoMath lemmas -/

theorem degrees_radians (x : ℝ) : degrees (radians x) = x := by
  unfold degrees radians
  field_simp

theorem atan2_zero_one : atan2 0 1 = 0 := by
  unfold atan2
  norm_num [Complex.arg_one]

theorem atan2_sin_cos (θ : ℝ) (hθ : θ ∈ Set.Ioc (-Real.pi) Real.pi) :
    atan2 (Real.sin θ) (Real.cos θ) = θ := by
  unfold atan2
  rw [Complex.ofReal_cos, Complex.ofReal_sin]
  exact Complex.arg_cos_add_sin_mul_I hθ

theorem angularC_self (l o : ℝ) : angularC l o l o = 0 := by
  unfold angularC
  simp [sub_self, zero_div, Real.sin_zero, Real.sqrt_zero, Real.sqrt_one, atan2_zero_one]

/-- Converting the weighted Cartesian point back to spherical coordinates
recovers a latitude strictly inside `(-π/2, π/2)` and a longitude in
`(-π, π]` exactly. -/
theorem latlon_roundtrip (φ lam : ℝ) (hφ1 : -(Real.pi / 2) < φ) (hφ2 : φ < Real.pi / 2)
    (hlam : lam ∈ Set.Ioc (-Real.pi) Real.pi) :
    atan2 (Real.sin φ)
        (Real.sqrt ((Real.cos φ * Real.cos lam) ^ 2 + (Real.cos φ * Real.sin lam) ^ 2)) = φ ∧
      atan2 (Real.cos φ * Real.sin lam) (Real.cos φ * Real.cos lam) = lam := by
  have hcos : 0 < Real.cos φ := Real.cos_pos_of_mem_Ioo ⟨hφ1, hφ2⟩
  constructor
  · have hsq : (Real.cos φ * Real.cos lam) ^ 2 + (Real.cos φ * Real.sin lam) ^ 2 =
        Real.cos φ ^ 2 := by
      have h := Real.sin_sq_add_cos_sq lam
      nlinarith [h]
    rw [hsq, Real.sqrt_sq hcos.le]
    apply atan2_sin_cos
    exact Set.mem_Ioc.mpr ⟨by linarith [Real.pi_pos], by linarith [Real.pi_pos]⟩
  · unfold atan2
    have hrw : ((Real.cos φ * Real.cos lam : ℝ) : ℂ) +
        ((Real.cos φ * Real.sin lam : ℝ) : ℂ) * Complex.I =
        ((Real.cos φ : ℝ) : ℂ) *
          (((Real.cos lam : ℝ) : ℂ) + ((Real.sin lam : ℝ) : ℂ) * Complex.I) := by
      push_cast
      ring
    rw [hrw, Complex.arg_real_mul _ hcos, Complex.ofReal_cos, Complex.ofReal_sin]
    exact Complex.arg_cos_add_sin_mul_I hlam

theorem slerpA_zero (c : ℝ) : slerpA c 0 = 1 := by
  unfold slerpA
  split
  · norm_num
  · next h =>
    rw [show (1 - (0 : ℝ)) * c = c by ring]
    exact div_self h

theorem slerpB_zero (c : ℝ) : slerpB c 0 = 0 := by
  unfold slerpB
  split
  · rfl
  · rw [zero_mul, Real.sin_zero, zero_div]

theorem slerpA_one (c : ℝ) : slerpA c 1 = 0 := by
  unfold slerpA
  split
  · norm_num
  · rw [show (1 - (1 : ℝ)) * c = 0 by ring, Real.sin_zero, zero_div]

theorem slerpB_one (c : ℝ) : slerpB c 1 = 1 := by
  unfold slerpB
  split
  · rfl
  · next h =>
    rw [one_mul]
    exact div_self h

theorem gcPoint_at_zero (rlat1 rlon1 rlat2 rlon2 c : ℝ)
    (hφ1 : -(Real.pi / 2) < rlat1) (hφ2 : rlat1 < Real.pi / 2)
    (hlam : rlon1 ∈ Set.Ioc (-Real.pi) Real.pi) :
    gcPoint rlat1 rlon1 rlat2 rlon2 c 0 = (degrees rlat1, degrees rlon1) := by
  unfold gcPoint
  rw [slerpA_zero, slerpB_zero]
  dsimp only
  have hx : 1 * Real.cos rlat1 * Real.cos rlon1 + 0 * Real.cos rlat2 * Real.cos rlon2 =
      Real.cos rlat1 * Real.cos rlon1 := by ring
  have hy : 1 * Real.cos rlat1 * Real.sin rlon1 + 0 * Real.cos rlat2 * Real.sin rlon2 =
      Real.cos rlat1 * Real.sin rlon1 := by ring
  have hz : 1 * Real.sin rlat1 + 0 * Real.sin rlat2 = Real.sin rlat1 := by ring
  rw [hx, hy, hz]
  rcases latlon_roundtrip rlat1 rlon1 hφ1 hφ2 hlam with ⟨ha, hb⟩
  rw [ha, hb]

theorem gcPoint_at_one (rlat1 rlon1 rlat2 rlon2 c : ℝ)
    (hφ1 : -(Real.pi / 2) < rlat2) (hφ2 : rlat2 < Real.pi / 2)
    (hlam : rlon2 ∈ Set.Ioc (-Real.pi) Real.pi) :
    gcPoint rlat1 rlon1 rlat2 rlon2 c 1 = (degrees rlat2, degrees rlon2) := by
  unfold gcPoint
  rw [slerpA_one, slerpB_one]
  dsimp only
  have hx : 0 * Real.cos rlat1 * Real.cos rlon1 + 1 * Real.cos rlat2 * Real.cos rlon2 =
      Real.cos rlat2 * Real.cos rlon2 := by ring
  have hy : 0 * Real.cos rlat1 * Real.sin rlon1 + 1 * Real.cos rlat2 * Real.sin rlon2 =
      Real.cos rlat2 * Real.sin rlon2 := by ring
  have hz : 0 * Real.sin rlat1 + 1 * Real.sin rlat2 = Real.sin rlat2 := by ring
  rw [hx, hy, hz]
  rcases latlon_roundtrip rlat2 rlon2 hφ1 hφ2 hlam with ⟨ha, hb⟩
  rw [ha, hb]

theorem gcPoint_degenerate (rlat rlon c f : ℝ) (hc : Real.sin c = 0)
    (hφ1 : -(Real.pi / 2) < rlat) (hφ2 : rlat < Real.pi / 2)
    (hlam : rlon ∈ Set.Ioc (-Real.pi) Real.pi) :
    gcPoint rlat rlon rlat rlon c f = (degrees rlat, degrees rlon) := by
  unfold gcPoint slerpA slerpB
  rw [if_pos hc, if_pos hc]
  dsimp only
  have hx : (1 - f) * Real.cos rlat * Real.cos rlon + f * Real.cos rlat * Real.cos rlon =
      Real.cos rlat * Real.cos rlon := by ring
  have hy : (1 - f) * Real.cos rlat * Real.sin rlon + f * Real.cos rlat * Real.sin rlon =
      Real.cos rlat * Real.sin rlon := by ring
  have hz : (1 - f) * Real.sin rlat + f * Real.sin rlat = Real.sin rlat := by ring
  rw [hx, hy, hz]
  rcases latlon_roundtrip rlat rlon hφ1 hφ2 hlam with ⟨ha, hb⟩
  rw [ha, hb]

theorem radians_lat_bounds (x : ℝ) (h1 : -90 < x) (h2 : x < 90) :
    -(Real.pi / 2) < radians x ∧ radians x < Real.pi / 2 := by
  unfold radians
  have h3 : 0 < (x + 90) * Real.pi := mul_pos (by linarith) Real.pi_pos
  have h4 : 0 < (90 - x) * Real.pi := mul_pos (by linarith) Real.pi_pos
  constructor
  · nlinarith
  · nlinarith

theorem radians_lon_bounds (x : ℝ) (h1 : -180 < x) (h2 : x ≤ 180) :
    radians x ∈ Set.Ioc (-Real.pi) Real.pi := by
  unfold radians
  have h3 : 0 < (x + 180) * Real.pi := mul_pos (by linarith) Real.pi_pos
  have h4 : 0 ≤ (180 - x) * Real.pi :=
    mul_nonneg (by linarith) Real.pi_pos.le
  rw [Set.mem_Ioc]
  constructor
  · nlinarith
  · nlinarith

theorem gcPoint_linear_eq (rlat1 rlon1 rlat2 rlon2 c f : ℝ)
    (hc : Real.sin c = 0) :
    gcPoint rlat1 rlon1 rlat2 rlon2 c f = gcPointLinear rlat1 rlon1 rlat2 rlon2 f := by
  unfold gcPoint gcPointLinear slerpA slerpB
  rw [if_pos hc, if_pos hc]

/-! ## Claim theorems -/

/-- C1: every edge of the built graph comes from a route record whose two
endpoints were both present as nodes, so every edge endpoint is a node
identifier present in the node set; all other routes are silently dropped
(construction is total and raises nothing). -/
theorem build_graph_edge_invariant (airports : List Airport) (routes : List Route)
    (e : ℕ × ℕ) (he : e ∈ (_build_graph airports routes).edges) :
    (∃ r ∈ routes, e = (r.src_id, r.dst_id)) ∧
      e.1 ∈ (_build_graph airports routes).nodes ∧
      e.2 ∈ (_build_graph airports routes).nodes := by
  have hg0 : EdgeOk (airports.foldl (fun g a => addNode g a.id) ⟨[], []⟩) := by
    intro e1 he1
    rw [foldl_addNode_edges] at he1
    cases he1
  constructor
  · unfold _build_graph at he
    rcases foldl_routeStep_edges_origin _ _ _ he with h | h
    · rw [foldl_addNode_edges] at h; cases h
    · exact h
  · exact edgeOk_foldl routes _ hg0 e he

theorem build_graph_edge_invariant_witness :
    ((1 : ℕ), (2 : ℕ)) ∈
        (_build_graph [⟨1, "A", 0, 0⟩, ⟨2, "B", 0, 0⟩] [⟨1, 2⟩]).edges ∧
      ((∃ r ∈ [(⟨1, 2⟩ : Route)], ((1 : ℕ), (2 : ℕ)) = (r.src_id, r.dst_id)) ∧
        (1 : ℕ) ∈ (_build_graph [⟨1, "A", 0, 0⟩, ⟨2, "B", 0, 0⟩] [⟨1, 2⟩]).nodes ∧
        (2 : ℕ) ∈ (_build_graph [⟨1, "A", 0, 0⟩, ⟨2, "B", 0, 0⟩] [⟨1, 2⟩]).nodes) :=
  ⟨by decide, build_graph_edge_invariant _ _ (1, 2) (by decide)⟩

/-- C10: a route whose `src_id` equals `dst_id` and refers to an existing
node is inserted as a self-loop edge; that node is then among its own
neighbours, so the connection count used by statistics and ranking counts
the node itself. -/
theorem self_loop_route_counts_self (airports : List Airport) (routes : List Route)
    (r : Route) (hr : r ∈ routes) (hself : r.src_id = r.dst_id)
    (hnode : r.src_id ∈ (_build_graph airports routes).nodes) :
    (r.src_id, r.src_id) ∈ (_build_graph airports routes).edges ∧
      r.src_id ∈ neighbors (_build_graph airports routes) r.src_id ∧
      1 ≤ degree (_build_graph airports routes) r.src_id := by
  have hnodes0 : r.src_id ∈ (airports.foldl (fun g a => addNode g a.id) ⟨[], []⟩).nodes := by
    unfold _build_graph at hnode
    rwa [foldl_routeStep_nodes] at hnode
  have hedge : hasEdge (_build_graph airports routes) r.src_id r.dst_id = true := by
    unfold _build_graph
    exact foldl_routeStep_edge_of_mem routes _ r hr hnodes0 (hself ▸ hnodes0)
  rw [← hself] at hedge
  have hmem : r.src_id ∈ neighbors (_build_graph airports routes) r.src_id :=
    List.mem_filter.mpr ⟨hnode, hedge⟩
  refine ⟨?_, hmem, ?_⟩
  · simpa [hasEdge] using hedge
  · exact List.length_pos_of_mem hmem

theorem self_loop_route_counts_self_witness :
    ((⟨1, 1⟩ : Route) ∈ [(⟨1, 1⟩ : Route)] ∧
        (⟨1, 1⟩ : Route).src_id = (⟨1, 1⟩ : Route).dst_id ∧
        (⟨1, 1⟩ : Route).src_id ∈ (_build_graph [⟨1, "A", 0, 0⟩] [⟨1, 1⟩]).nodes) ∧
      (((1 : ℕ), (1 : ℕ)) ∈ (_build_graph [⟨1, "A", 0, 0⟩] [⟨1, 1⟩]).edges ∧
        (1 : ℕ) ∈ neighbors (_build_graph [⟨1, "A", 0, 0⟩] [⟨1, 1⟩]) 1 ∧
        1 ≤ degree (_build_graph [⟨1, "A", 0, 0⟩] [⟨1, 1⟩]) 1) :=
  ⟨⟨by decide, by decide, by decide⟩,
    self_loop_route_counts_self [⟨1, "A", 0, 0⟩] [⟨1, 1⟩] ⟨1, 1⟩
      (by decide) (by decide) (by decide)⟩

/-- C4 counterexample: on the empty graph the statistics computation raises
the generic built-in `ValueError` (from `max([])`), not a specific
`EmptyGraphError` — no such class exists anywhere in the source. -/
theorem stats_empty_not_emptygrapherror :
    get_network_statistics (_build_graph [] []) = Except.error PyError.valueError ∧
      (Except.error PyError.valueError : Except PyError NetworkStats) ≠
        Except.error PyError.emptyGraphError := by
  constructor
  · rfl
  · intro h
    injection h with h2
    cases h2

/-- C4 amended: on a graph with zero nodes the statistics computation does
raise (it never returns a number or the dict), but the error is the generic
`ValueError` coming from `max()` over an empty sequence, not an explicit
`EmptyGraphError`. -/
theorem stats_empty_raises_valueerror (g : NXGraph) (h : g.nodes = []) :
    get_network_statistics g = Except.error PyError.valueError := by
  unfold get_network_statistics
  rw [h]
  rfl

theorem stats_empty_raises_valueerror_witness :
    (_build_graph [] []).nodes = [] ∧
      get_network_statistics (_build_graph [] []) = Except.error PyError.valueError :=
  ⟨by decide, stats_empty_raises_valueerror (_build_graph [] []) (by decide)⟩

/-- C5 counterexample: with airports `1, 2, 3` (in that file order), routes
`(1,3), (2,3)` and `n = 2`, the code returns the rows for ids `1` and `3`
in *file order* — the first returned entry has a strictly smaller
neighbour-count than the second, so the returned sequence is not ordered by
neighbour-count descending. -/
theorem get_top_airports_not_sorted_by_degree :
    get_top_airports [⟨1, "A", 0, 0⟩, ⟨2, "B", 0, 0⟩, ⟨3, "C", 0, 0⟩]
        [⟨1, 3⟩, ⟨2, 3⟩] 2 =
      [⟨1, "A", 0, 0⟩, ⟨3, "C", 0, 0⟩] ∧
      degree (_build_graph [⟨1, "A", 0, 0⟩, ⟨2, "B", 0, 0⟩, ⟨3, "C", 0, 0⟩]
          [⟨1, 3⟩, ⟨2, 3⟩]) 1 <
        degree (_build_graph [⟨1, "A", 0, 0⟩, ⟨2, "B", 0, 0⟩, ⟨3, "C", 0, 0⟩]
          [⟨1, 3⟩, ⟨2, 3⟩]) 3 := by
  constructor
  · rfl
  · decide

/-- C5 amended: under unique airport ids the ranking returns at most `n`
entries (`min n` of the airport count; all airports when `n` is at least
the airport count), and the *set* returned is a top-by-degree selection —
every returned airport has neighbour-count at least that of every
non-returned airport (ties resolved deterministically by node insertion
order inside the sort) — but the returned sequence itself is in
airport-file order, not degree order. -/
theorem get_top_airports_amended (airports : List Airport) (routes : List Route)
    (n : ℕ) (hnodup : (airports.map Airport.id).Nodup) :
    (get_top_airports airports routes n).length = min n airports.length ∧
      (airports.length ≤ n → get_top_airports airports routes n = airports) ∧
      (∀ a ∈ get_top_airports airports routes n, ∀ b ∈ airports,
        b ∉ get_top_airports airports routes n →
          degree (_build_graph airports routes) b.id ≤
            degree (_build_graph airports routes) a.id) := by
  have hnodes : (_build_graph airports routes).nodes = airports.map Airport.id :=
    build_graph_nodes airports routes hnodup
  have hperm :
      List.Perm
        ((_build_graph airports routes).nodes.insertionSort
          (degGE (_build_graph airports routes)))
        (_build_graph airports routes).nodes :=
    List.perm_insertionSort _ _
  have hSnodup :
      ((_build_graph airports routes).nodes.insertionSort
        (degGE (_build_graph airports routes))).Nodup :=
    hperm.nodup_iff.mpr (by rw [hnodes]; exact hnodup)
  have hunf : get_top_airports airports routes n =
      airports.filter (fun a => decide (a.id ∈
        (((_build_graph airports routes).nodes.insertionSort
          (degGE (_build_graph airports routes))).take n))) := rfl
  have hTsub : ∀ x ∈ (((_build_graph airports routes).nodes.insertionSort
      (degGE (_build_graph airports routes))).take n), x ∈ airports.map Airport.id := by
    intro x hx
    rw [← hnodes]
    exact hperm.mem_iff.mp (List.take_subset n _ hx)
  refine ⟨?_, ?_, ?_⟩
  · -- length = min n airports.length
    rw [hunf]
    have hmapped := filter_map_comm Airport.id
      (fun i => decide (i ∈ (((_build_graph airports routes).nodes.insertionSort
        (degGE (_build_graph airports routes))).take n))) airports
    have hlen : (airports.filter (fun a => decide (a.id ∈
        (((_build_graph airports routes).nodes.insertionSort
          (degGE (_build_graph airports routes))).take n)))).length =
        ((airports.map Airport.id).filter (fun i => decide (i ∈
          (((_build_graph airports routes).nodes.insertionSort
            (degGE (_build_graph airports routes))).take n)))).length := by
      rw [hmapped, List.length_map]
    rw [hlen]
    have hTnodup : (((_build_graph airports routes).nodes.insertionSort
        (degGE (_build_graph airports routes))).take n).Nodup :=
      (List.take_sublist n _).nodup hSnodup
    have hfin : ((airports.map Airport.id).filter (fun i => decide (i ∈
        (((_build_graph airports routes).nodes.insertionSort
          (degGE (_build_graph airports routes))).take n)))).toFinset =
        ((((_build_graph airports routes).nodes.insertionSort
          (degGE (_build_graph airports routes))).take n)).toFinset := by
      ext x
      simp only [List.mem_toFinset, List.mem_filter, decide_eq_true_eq]
      exact ⟨fun hx => hx.2, fun hx => ⟨hTsub x hx, hx⟩⟩
    have h1 : ((airports.map Airport.id).filter (fun i => decide (i ∈
        (((_build_graph airports routes).nodes.insertionSort
          (degGE (_build_graph airports routes))).take n)))).length =
        ((((_build_graph airports routes).nodes.insertionSort
          (degGE (_build_graph airports routes))).take n)).length := by
      rw [← List.toFinset_card_of_nodup (hnodup.filter _),
        ← List.toFinset_card_of_nodup hTnodup, hfin]
    rw [h1, List.length_take, hperm.length_eq, hnodes, List.length_map]
  · -- n large: all airports returned
    intro hn
    rw [hunf]
    apply List.filter_eq_self.mpr
    intro a ha
    have hS : a.id ∈ ((_build_graph airports routes).nodes.insertionSort
        (degGE (_build_graph airports routes))) := by
      rw [hperm.mem_iff, hnodes]
      exact List.mem_map_of_mem Airport.id ha
    have hlen : (((_build_graph airports routes).nodes.insertionSort
        (degGE (_build_graph airports routes)))).length ≤ n := by
      rw [hperm.length_eq, hnodes, List.length_map]
      exact hn
    rw [List.take_of_length_le hlen]
    simpa using hS
  · -- selection is top-by-degree
    intro a ha b hb hbnot
    rw [hunf] at ha hbnot
    have haT := (List.mem_filter.mp ha).2
    rw [decide_eq_true_eq] at haT
    have hbT : b.id ∉ (((_build_graph airports routes).nodes.insertionSort
        (degGE (_build_graph airports routes))).take n) := by
      intro hmem
      exact hbnot (List.mem_filter.mpr ⟨hb, by simpa using hmem⟩)
    have hbS : b.id ∈ ((_build_graph airports routes).nodes.insertionSort
        (degGE (_build_graph airports routes))) := by
      rw [hperm.mem_iff, hnodes]
      exact List.mem_map_of_mem Airport.id hb
    have hbdrop : b.id ∈ (((_build_graph airports routes).nodes.insertionSort
        (degGE (_build_graph airports routes))).drop n) := by
      have hsplit := hbS
      rw [← List.take_append_drop n ((_build_graph airports routes).nodes.insertionSort
        (degGE (_build_graph airports routes)))] at hsplit
      rcases List.mem_append.mp hsplit with h | h
      · exact absurd h hbT
      · exact h
    have hsorted : List.Sorted (degGE (_build_graph airports routes))
        ((_build_graph airports routes).nodes.insertionSort
          (degGE (_build_graph airports routes))) :=
      List.sorted_insertionSort _ _
    exact hsorted.rel_of_mem_take_of_mem_drop haT hbdrop

theorem get_top_airports_amended_witness :
    ([(⟨1, "A", 0, 0⟩ : Airport), ⟨2, "B", 0, 0⟩, ⟨3, "C", 0, 0⟩].map Airport.id).Nodup ∧
      ((get_top_airports [⟨1, "A", 0, 0⟩, ⟨2, "B", 0, 0⟩, ⟨3, "C", 0, 0⟩]
          [⟨1, 3⟩, ⟨2, 3⟩] 2).length =
        min 2 [(⟨1, "A", 0, 0⟩ : Airport), ⟨2, "B", 0, 0⟩, ⟨3, "C", 0, 0⟩].length ∧
      ([(⟨1, "A", 0, 0⟩ : Airport), ⟨2, "B", 0, 0⟩, ⟨3, "C", 0, 0⟩].length ≤ 2 →
        get_top_airports [⟨1, "A", 0, 0⟩, ⟨2, "B", 0, 0⟩, ⟨3, "C", 0, 0⟩]
          [⟨1, 3⟩, ⟨2, 3⟩] 2 =
          [⟨1, "A", 0, 0⟩, ⟨2, "B", 0, 0⟩, ⟨3, "C", 0, 0⟩]) ∧
      (∀ a ∈ get_top_airports [⟨1, "A", 0, 0⟩, ⟨2, "B", 0, 0⟩, ⟨3, "C", 0, 0⟩]
          [⟨1, 3⟩, ⟨2, 3⟩] 2,
        ∀ b ∈ [(⟨1, "A", 0, 0⟩ : Airport), ⟨2, "B", 0, 0⟩, ⟨3, "C", 0, 0⟩],
          b ∉ get_top_airports [⟨1, "A", 0, 0⟩, ⟨2, "B", 0, 0⟩, ⟨3, "C", 0, 0⟩]
            [⟨1, 3⟩, ⟨2, 3⟩] 2 →
            degree (_build_graph [⟨1, "A", 0, 0⟩, ⟨2, "B", 0, 0⟩, ⟨3, "C", 0, 0⟩]
              [⟨1, 3⟩, ⟨2, 3⟩]) b.id ≤
              degree (_build_graph [⟨1, "A", 0, 0⟩, ⟨2, "B", 0, 0⟩, ⟨3, "C", 0, 0⟩]
                [⟨1, 3⟩, ⟨2, 3⟩]) a.id)) :=
  ⟨by decide,
    get_top_airports_amended [⟨1, "A", 0, 0⟩, ⟨2, "B", 0, 0⟩, ⟨3, "C", 0, 0⟩]
      [⟨1, 3⟩, ⟨2, 3⟩] 2 (by decide)⟩

/-- C6: for every graph on which the statistics computation succeeds, the
reported diameter is the numeric greatest shortest-path hop distance over
all node pairs when the graph is connected, and the non-numeric sentinel
(`'N/A (grafo não conectado)'`, embedded as `DiamValue.na`) when it is not. -/
theorem stats_diameter_correct (g : NXGraph) (s : NetworkStats)
    (hs : get_network_statistics g = Except.ok s) :
    (isConnectedB g = true →
      s.diameter = DiamValue.val (diameterNX g) ∧
      (∃ u ∈ g.nodes, ∃ v ∈ g.nodes, IsShortestDist g u v (diameterNX g)) ∧
      (∀ u ∈ g.nodes, ∀ v ∈ g.nodes, ∀ d, IsShortestDist g u v d → d ≤ diameterNX g)) ∧
    (isConnectedB g = false → s.diameter = DiamValue.na) := by
  have hdiam_def : diameterNX g = (g.nodes.map (fun u => ecc g u)).foldr max 0 := rfl
  have hecc_def : ∀ u, ecc g u =
      (g.nodes.map (fun v => (distB g u v).getD 0)).foldr max 0 := fun _ => rfl
  unfold get_network_statistics at hs
  split at hs
  · cases hs
  · next hne =>
    injection hs with hs
    subst hs
    have hnodes_ne : g.nodes ≠ [] := by
      intro h
      rw [h] at hne
      exact hne rfl
    obtain ⟨u0, rest, hn⟩ : ∃ u0 rest, g.nodes = u0 :: rest := by
      cases hcase : g.nodes with
      | nil => exact absurd hcase hnodes_ne
      | cons a l => exact ⟨a, l, rfl⟩
    have hu0 : u0 ∈ g.nodes := by
      rw [hn]
      exact List.mem_cons_self _ _
    have hshort_self : ∀ w, IsShortestDist g w w 0 := fun w =>
      ⟨(existsWalk_zero g w w).mpr rfl, fun j hj => absurd hj (Nat.not_lt_zero j)⟩
    constructor
    · intro hc
      refine ⟨?_, ?_, ?_⟩
      · show (if isConnectedB g then DiamValue.val (diameterNX g) else DiamValue.na) =
          DiamValue.val (diameterNX g)
        rw [if_pos hc]
      · -- the maximum is attained at some pair
        rcases foldr_max_mem (g.nodes.map (fun u => ecc g u)) with hmem | hzero
        · rcases List.mem_map.mp hmem with ⟨u, hu, hecc⟩
          rcases foldr_max_mem (g.nodes.map (fun v => (distB g u v).getD 0)) with hm2 | hz2
          · rcases List.mem_map.mp hm2 with ⟨v, hv, hdv⟩
            rcases connected_dist g hc u hu v hv with ⟨d, hd, hds⟩
            refine ⟨u, hu, v, hv, ?_⟩
            have hgd : (distB g u v).getD 0 = d := by
              rw [hd]
              rfl
            have hdiam_eq : diameterNX g = d := by
              rw [hdiam_def, ← hecc, hecc_def u, ← hdv, hgd]
            rwa [hdiam_eq]
          · refine ⟨u, hu, u, hu, ?_⟩
            have hdiam_eq : diameterNX g = 0 := by
              rw [hdiam_def, ← hecc, hecc_def u, hz2]
            rw [hdiam_eq]
            exact hshort_self u
        · refine ⟨u0, hu0, u0, hu0, ?_⟩
          rw [hdiam_def, hzero]
          exact hshort_self u0
      · -- every pairwise shortest distance is bounded by the reported diameter
        intro u hu v hv d hds
        rcases connected_dist g hc u hu v hv with ⟨d2, hd2, hds2⟩
        have hdd : d = d2 := shortest_dist_unique g u v d d2 hds hds2
        have h1 : (distB g u v).getD 0 = d2 := by
          rw [hd2]
          rfl
        have h2 : (distB g u v).getD 0 ∈ g.nodes.map (fun v => (distB g u v).getD 0) :=
          List.mem_map_of_mem _ hv
        have h3 : d2 ≤ ecc g u := by
          rw [hecc_def u, ← h1]
          exact le_foldr_max _ _ h2
        have h5 : ecc g u ≤ diameterNX g := by
          rw [hdiam_def]
          exact le_foldr_max _ _ (List.mem_map_of_mem _ hu)
        omega
    · intro hc
      show (if isConnectedB g then DiamValue.val (diameterNX g) else DiamValue.na) =
        DiamValue.na
      rw [hc]
      rfl

theorem stats_diameter_correct_witness :
    get_network_statistics (_build_graph [⟨1, "A", 0, 0⟩, ⟨2, "B", 0, 0⟩] [⟨1, 2⟩]) =
        Except.ok ⟨2, 1, ((2 : ℕ) : ℚ) / ((2 : ℕ) : ℚ), 1, 1, DiamValue.val 1⟩ ∧
      ((isConnectedB (_build_graph [⟨1, "A", 0, 0⟩, ⟨2, "B", 0, 0⟩] [⟨1, 2⟩]) = true →
        (⟨2, 1, ((2 : ℕ) : ℚ) / ((2 : ℕ) : ℚ), 1, 1, DiamValue.val 1⟩ : NetworkStats).diameter =
          DiamValue.val (diameterNX (_build_graph [⟨1, "A", 0, 0⟩, ⟨2, "B", 0, 0⟩] [⟨1, 2⟩])) ∧
        (∃ u ∈ (_build_graph [⟨1, "A", 0, 0⟩, ⟨2, "B", 0, 0⟩] [⟨1, 2⟩]).nodes,
          ∃ v ∈ (_build_graph [⟨1, "A", 0, 0⟩, ⟨2, "B", 0, 0⟩] [⟨1, 2⟩]).nodes,
            IsShortestDist (_build_graph [⟨1, "A", 0, 0⟩, ⟨2, "B", 0, 0⟩] [⟨1, 2⟩]) u v
              (diameterNX (_build_graph [⟨1, "A", 0, 0⟩, ⟨2, "B", 0, 0⟩] [⟨1, 2⟩]))) ∧
        (∀ u ∈ (_build_graph [⟨1, "A", 0, 0⟩, ⟨2, "B", 0, 0⟩] [⟨1, 2⟩]).nodes,
          ∀ v ∈ (_build_graph [⟨1, "A", 0, 0⟩, ⟨2, "B", 0, 0⟩] [⟨1, 2⟩]).nodes,
            ∀ d, IsShortestDist (_build_graph [⟨1, "A", 0, 0⟩, ⟨2, "B", 0, 0⟩] [⟨1, 2⟩]) u v d →
              d ≤ diameterNX (_build_graph [⟨1, "A", 0, 0⟩, ⟨2, "B", 0, 0⟩] [⟨1, 2⟩]))) ∧
      (isConnectedB (_build_graph [⟨1, "A", 0, 0⟩, ⟨2, "B", 0, 0⟩] [⟨1, 2⟩]) = false →
        (⟨2, 1, ((2 : ℕ) : ℚ) / ((2 : ℕ) : ℚ), 1, 1, DiamValue.val 1⟩ : NetworkStats).diameter = DiamValue.na)) :=
  ⟨by rfl, stats_diameter_correct _ _ (by rfl)⟩

/-- Supporting lemma (not tied to a claim): in the exact real-number model,
for `num_points ≥ 1` and endpoints strictly inside the coordinate chart
(`-90 < lat < 90`, `-180 < lon ≤ 180`), `great_circle_path` returns exactly
`num_points + 1` points whose first point equals `A` and last point equals
`B` exactly, and for `A = B` every returned point equals `A`.  At the chart
boundary (poles, `-180`) the read-back in this idealized model differs from
the floating-point program, so no boundary case is stated here. -/
theorem great_circle_path_endpoints (lat1 lon1 lat2 lon2 : ℝ) (n : ℕ) (hn : n ≠ 0)
    (h1a : -90 < lat1) (h1b : lat1 < 90) (h2a : -180 < lon1) (h2b : lon1 ≤ 180)
    (h3a : -90 < lat2) (h3b : lat2 < 90) (h4a : -180 < lon2) (h4b : lon2 ≤ 180) :
    ∃ lats lons, great_circle_path lat1 lon1 lat2 lon2 n = some (lats, lons) ∧
      lats.length = n + 1 ∧ lons.length = n + 1 ∧
      lats.head? = some lat1 ∧ lons.head? = some lon1 ∧
      lats.getLast? = some lat2 ∧ lons.getLast? = some lon2 ∧
      (lat1 = lat2 → lon1 = lon2 → (∀ x ∈ lats, x = lat1) ∧ (∀ y ∈ lons, y = lon1)) := by
  obtain ⟨hb1, hb2⟩ := radians_lat_bounds lat1 h1a h1b
  have hlo1 := radians_lon_bounds lon1 h2a h2b
  obtain ⟨hb3, hb4⟩ := radians_lat_bounds lat2 h3a h3b
  have hlo2 := radians_lon_bounds lon2 h4a h4b
  have hf0 : ((0 : ℕ) : ℝ) / (n : ℝ) = 0 := by norm_num
  have hf1 : ((n : ℕ) : ℝ) / (n : ℝ) = 1 := div_self (Nat.cast_ne_zero.mpr hn)
  unfold great_circle_path
  rw [if_neg hn]
  dsimp only
  refine ⟨_, _, rfl, ?_, ?_, ?_, ?_, ?_, ?_, ?_⟩
  · simp
  · simp
  · rw [List.range_succ_eq_map]
    simp only [List.map_cons, List.head?_cons]
    rw [hf0, gcPoint_at_zero _ _ _ _ _ hb1 hb2 hlo1]
    simp [degrees_radians]
  · rw [List.range_succ_eq_map]
    simp only [List.map_cons, List.head?_cons]
    rw [hf0, gcPoint_at_zero _ _ _ _ _ hb1 hb2 hlo1]
    simp [degrees_radians]
  · rw [List.range_succ]
    simp only [List.map_append, List.map_cons, List.map_nil]
    rw [List.getLast?_concat]
    rw [hf1, gcPoint_at_one _ _ _ _ _ hb3 hb4 hlo2]
    simp [degrees_radians]
  · rw [List.range_succ]
    simp only [List.map_append, List.map_cons, List.map_nil]
    rw [List.getLast?_concat]
    rw [hf1, gcPoint_at_one _ _ _ _ _ hb3 hb4 hlo2]
    simp [degrees_radians]
  · intro he1 he2
    subst he1
    subst he2
    have hc : Real.sin (angularC lat1 lon1 lat1 lon1) = 0 := by
      rw [angularC_self]
      exact Real.sin_zero
    constructor
    · intro x hx
      rcases List.mem_map.mp hx with ⟨p, hp, rfl⟩
      rcases List.mem_map.mp hp with ⟨i, _, rfl⟩
      rw [gcPoint_degenerate _ _ _ _ hc hb1 hb2 hlo1]
      simp [degrees_radians]
    · intro y hy
      rcases List.mem_map.mp hy with ⟨p, hp, rfl⟩
      rcases List.mem_map.mp hp with ⟨i, _, rfl⟩
      rw [gcPoint_degenerate _ _ _ _ hc hb1 hb2 hlo1]
      simp [degrees_radians]

/-- C9: whenever the angular separation `c` has `sin c = 0` exactly (the
endpoints coincide or are antipodal in exact arithmetic — the reading of
"sin(c) ≈ 0" in the real-number model), every sample point is computed with
the linear fallback weights `A = 1−f, B = f`, i.e. the whole path equals the
linear-weight path; and for `num_points ≥ 1` the call still produces its
full `num_points + 1` sample points, all of them real numbers (no NaN or
infinity exists in this model, and no division by the vanishing `sin c` is
performed). -/
theorem great_circle_path_fallback (lat1 lon1 lat2 lon2 : ℝ) (n : ℕ)
    (hc : Real.sin (angularC lat1 lon1 lat2 lon2) = 0) :
    great_circle_path lat1 lon1 lat2 lon2 n =
        great_circle_path_linear lat1 lon1 lat2 lon2 n ∧
      (n ≠ 0 → ∃ lats lons,
        great_circle_path lat1 lon1 lat2 lon2 n = some (lats, lons) ∧
        lats.length = n + 1 ∧ lons.length = n + 1) := by
  constructor
  · unfold great_circle_path great_circle_path_linear
    split
    · rfl
    · dsimp only
      have hfun : (fun i : ℕ => gcPoint (radians lat1) (radians lon1) (radians lat2)
          (radians lon2) (angularC lat1 lon1 lat2 lon2) ((i : ℝ) / (n : ℝ))) =
          (fun i : ℕ => gcPointLinear (radians lat1) (radians lon1) (radians lat2)
            (radians lon2) ((i : ℝ) / (n : ℝ))) :=
        funext (fun i => gcPoint_linear_eq _ _ _ _ _ _ hc)
      rw [hfun]
  · intro hn
    unfold great_circle_path
    rw [if_neg hn]
    exact ⟨_, _, rfl, by simp, by simp⟩

theorem great_circle_path_fallback_witness :
    Real.sin (angularC 0 0 0 0) = 0 ∧
      (great_circle_path 0 0 0 0 1 = great_circle_path_linear 0 0 0 0 1 ∧
        ((1 : ℕ) ≠ 0 → ∃ lats lons, great_circle_path 0 0 0 0 1 = some (lats, lons) ∧
          lats.length = 1 + 1 ∧ lons.length = 1 + 1)) :=
  ⟨by rw [angularC_self]; exact Real.sin_zero,
    great_circle_path_fallback 0 0 0 0 1
      (by rw [angularC_self]; exact Real.sin_zero)⟩

/-- C2: for every four coordinates in degrees, `haversine_distance` returns
exactly the reference definition — radians conversion,
`a = sin²(Δlat/2) + cos(lat1)·cos(lat2)·sin²(Δlon/2)`, `c = 2·asin(√a)`,
result `c × 6371` kilometres. -/
theorem haversine_matches_reference (lat1 lon1 lat2 lon2 : ℝ) :
    haversine_distance lat1 lon1 lat2 lon2 = haversine_reference lat1 lon1 lat2 lon2 := by
  simp only [haversine_distance, haversine_reference]

/-- C8: `haversine_distance` is symmetric in its two coordinate pairs, and
the distance from any point to itself is `0`. -/
theorem haversine_symm_and_self_zero :
    (∀ lat1 lon1 lat2 lon2 : ℝ,
        haversine_distance lat1 lon1 lat2 lon2 = haversine_distance lat2 lon2 lat1 lon1) ∧
      (∀ lat lon : ℝ, haversine_distance lat lon lat lon = 0) := by
  constructor
  · intro lat1 lon1 lat2 lon2
    simp only [haversine_distance]
    have hlat : Real.sin ((radians lat1 - radians lat2) / 2) =
        -Real.sin ((radians lat2 - radians lat1) / 2) := by
      rw [← Real.sin_neg]; ring_nf
    have hlon : Real.sin ((radians lon1 - radians lon2) / 2) =
        -Real.sin ((radians lon2 - radians lon1) / 2) := by
      rw [← Real.sin_neg]; ring_nf
    rw [hlat, hlon]; ring_nf
  · intro lat lon
    simp [haversine_distance]

/-- C7: the claim says `great_circle_path` explicitly guards
`num_points = 0`; in the source there is no guard — the first loop iteration
divides `0 / 0` and Python raises `ZeroDivisionError`, so the call never
produces a point list (embedded: the result is `none` for every input pair). -/
theorem great_circle_path_zero_points_raises (lat1 lon1 lat2 lon2 : ℝ) :
    great_circle_path lat1 lon1 lat2 lon2 0 = none := by
  simp [great_circle_path]

end AirportGraph
